import Mathlib

/-!
# Verification of a Shamir secret sharing implementation

Shallow embedding of `src/lib.rs` of the `secretsharing_shamir` crate.
Big integers (`BigUint`) are modelled as `Nat`; Rust `Result` values as
`Except`; Rust panics (`.unwrap()` on an `Err`, `BigUint` subtraction
underflow, `%` by zero) are modelled explicitly.  The operating-system
randomness consumed by `SS::new` is modelled as explicit inputs: the
generated prime, a stream of middle-coefficient draws, and the list of
draws consumed by the leading-coefficient rejection loop.
-/

deriving instance DecidableEq for Except

/-- The `Error` enum from the source. -/
inductive Error where
  | ThresholdTooSmall
  | ZeroInputGCD
  | NotCoprimes
deriving DecidableEq

/-- The uncatchable faults (Rust panics) the code can raise: `unwrapErr e`
models `.unwrap()` applied to `Err(e)`; `underflow` models `BigUint`
subtraction below zero; `divByZero` models `%` by a zero modulus. -/
inductive Pan where
  | unwrapErr (e : Error)
  | underflow
  | divByZero
deriving DecidableEq

/-- Outcome of a Rust function returning `Result<α, Error>`: a normal
value, a returned `Err`, or a panic. -/
inductive Res (α : Type) where
  | ok (a : α)
  | err (e : Error)
  | panicked (q : Pan)
deriving DecidableEq

/-- The `BitSize` enum from the source. -/
inductive BitSize where
  | Bit256
  | Bit512
  | Bit1024
deriving DecidableEq

/-- `BitSize::fixed_prime` from the source: the three hard-coded primes. -/
def BitSize.fixed_prime : BitSize → Nat
  | .Bit256 => 0xD7F71B07B75BC19077A53B9B1BAEA33249C8CD5C132C7FA3E20E18AAF17F5A9B
  | .Bit512 => 0xEB3CFFA5DBAB1325022CE08399445F0E4B9B146B0BA3D17967D70616B2E33B62FCE08149C3D76FA8EAC2769B4DB5232DFF3416848ED598BA2470CEC3CB5DCD6B
  | .Bit1024 => 0xDE97F71CFA25F986F6D07618C9EDB1378517A16101CEF67262AFBD3D703E94134F91757A03262A988C1A8DE361AAE62F96D7E2C70C10AFD647F718A628651C234225FE75F25FB1D6FB28596BEA5E2802B5B4E4BE3CE573192CC1E1F1DEB8CACAC9BC55AA8CB213945388C78271D5E500D34469A4108680E1AF56FA7C05D321DF

/-- The `Share` struct from the source: an `(x, y)` value pair. -/
structure Share where
  X : Nat
  Y : Nat
deriving DecidableEq

/-- The `SS` struct from the source: the modulus and the coefficient
vector `a0, a1, ...` of the sharing polynomial. -/
structure SS where
  prime : Nat
  polynomial : List Nat
deriving DecidableEq

/-- The rejection-sampling loop inside `SS::gen_polynomial`: it draws
`n_bit_random() % p` until the value is nonzero.  The argument list models
the successive RNG draws; `none` models the (probability-zero) case in
which every modelled draw reduces to zero and the loop does not return. -/
def pickLead (p : Nat) : List Nat → Option Nat
  | [] => none
  | d :: ds => if d % p ≠ 0 then some (d % p) else pickLead p ds

/-- `SS::gen_polynomial` from the source: push `secret % p`, then
`degree - 1` random coefficients reduced mod `p` (`mid` models the RNG
draws), then the first nonzero leading draw from `leads`. -/
def SS.gen_polynomial (p secret degree : Nat) (mid : Nat → Nat)
    (leads : List Nat) : Option (List Nat) :=
  match pickLead p leads with
  | none => none
  | some lc =>
    some (secret % p :: (((List.range (degree - 1)).map fun i => mid i % p) ++ [lc]))

/-- `SS::new` from the source.  `genPrime` models the output of the
external safe-prime generator used when `use_fixed_prime` is false; `mid`
and `leads` model the RNG draws consumed by `gen_polynomial`. -/
def SS.new (prime_size : BitSize) (use_fixed_prime : Bool) (threshold secret : Nat)
    (genPrime : Nat) (mid : Nat → Nat) (leads : List Nat) : Option (Except Error SS) :=
  if threshold ≤ 1 then some (.error .ThresholdTooSmall)
  else
    let prim := if use_fixed_prime then prime_size.fixed_prime else genPrime
    match SS.gen_polynomial prim (secret % prim) (threshold - 1) mid leads with
    | none => none
    | some poly => some (.ok ⟨prim, poly⟩)

/-- The accumulator loop inside `SS::eval_px_at_xi` (`y` is the running
value, `xp` the running power of `x`); `none` models the panic of `%` by a
zero modulus. -/
def evalLoop (p x : Nat) : List Nat → Nat → Nat → Option Nat
  | [], y, _ => some y
  | a :: rest, y, xp =>
    if p = 0 then none
    else evalLoop p x rest ((y + xp * a % p) % p) (xp * x % p)

/-- `SS::eval_px_at_xi` from the source; `none` models the panic of
indexing `polynomial[0]` on an empty coefficient vector. -/
def SS.eval_px_at_xi (sss : SS) (x : Nat) : Option Nat :=
  match sss.polynomial with
  | [] => none
  | a0 :: rest => evalLoop sss.prime x rest a0 x

/-- `SS::gen_shares` from the source: each point becomes a `Share` whose
`X` is the point itself (not reduced) and whose `Y` is the polynomial
value at the point. -/
def SS.gen_shares (sss : SS) : List Nat → Option (List Share)
  | [] => some []
  | pt :: pts =>
    match sss.eval_px_at_xi pt, SS.gen_shares sss pts with
    | some y, some rest => some (⟨pt, y⟩ :: rest)
    | _, _ => none

/-- The Euclidean `while` loop inside `SS::gcd`. -/
def gcdLoop : Nat → Nat → Nat
  | a, 0 => a
  | a, b + 1 => gcdLoop (b + 1) (a % (b + 1))
termination_by a b => b
decreasing_by exact Nat.mod_lt _ (Nat.succ_pos _)

/-- `SS::gcd` from the source. -/
def SS.gcd (x y : Nat) : Except Error Nat :=
  if x = 0 ∨ y = 0 then .error .ZeroInputGCD
  else .ok (gcdLoop x y)

/-- Modelled from the contract of the external `num_bigint::BigUint::modinv`
used by `inv_modp` (the function is not part of this repository): it
returns the modular inverse in `[0, n)` when one exists, `None` otherwise. -/
def modinv (a n : Nat) : Option Nat :=
  (List.range n).find? fun v => a * v % n == 1

/-- `SS::inv_modp` from the source, with its panics modelled: `%` by a
zero modulus, and the `.unwrap()` of the inner `gcd` call. -/
def SS.inv_modp (prime a : Nat) : Res Nat :=
  if prime = 0 then .panicked .divByZero
  else
    let aa := (prime + a) % prime
    match SS.gcd aa prime with
    | .error e => .panicked (.unwrapErr e)
    | .ok g =>
      if g = 1 then
        match modinv aa prime with
        | some v => .ok v
        | none => .err .NotCoprimes
      else .err .NotCoprimes

/-- The inner `j`-loop of `SS::reconstruct_secret`, accumulating the
Lagrange numerator and denominator products for one share (skipping index
`i` is realised by running over `all.eraseIdx i`); the `Except` errors
model the subtraction-underflow and division-by-zero panics. -/
def numDen (p xi : Nat) : List Share → Nat → Nat → Except Pan (Nat × Nat)
  | [], num, den => .ok (num, den)
  | sh :: rest, num, den =>
    if p < sh.X then .error .underflow
    else if p = 0 then .error .divByZero
    else
      numDen p xi rest (num * ((p - sh.X) % p) % p)
        (den * ((xi + (p - sh.X) % p) % p) % p)

/-- The outer `i`-loop of `SS::reconstruct_secret`: `all` is the full
share vector, `rest` the shares still to be processed, `i` the current
index and `res` the accumulator; a panic inside `inv_modp`, or an `Err`
hit by the `.unwrap()` on its result, aborts the run. -/
def outerLoop (p : Nat) (all : List Share) : List Share → Nat → Nat → Except Pan Nat
  | [], _, res => .ok res
  | sh :: rest, i, res =>
    match numDen p sh.X (all.eraseIdx i) 1 1 with
    | .error q => .error q
    | .ok (num, den) =>
      match SS.inv_modp p den with
      | .panicked q => .error q
      | .err e => .error (.unwrapErr e)
      | .ok dinv =>
        outerLoop p all rest (i + 1) ((res + sh.Y * (num * dinv % p) % p) % p)

/-- `SS::reconstruct_secret` from the source. -/
def SS.reconstruct_secret (p : Nat) (shares : List Share) : Except Pan Nat :=
  outerLoop p shares shares 0 0

/-- Specification-side polynomial evaluation, following the spec's words:
the sum of `a_k * x^k`, reduced mod `p`. -/
def polyEvalSpec (c : List Nat) (p x : Nat) : Nat :=
  (((List.range c.length).map fun k => c.getD k 0 * x ^ k).sum) % p

/-- The modulus a session built by `SS::new` ends up with. -/
def sessionPrime (prime_size : BitSize) (use_fixed_prime : Bool) (genPrime : Nat) : Nat :=
  if use_fixed_prime then prime_size.fixed_prime else genPrime

/-- The `ZMod p` value of the `i`-th Lagrange summand
`y_i * Π (0 - x_j) * (Π (x_i - x_j))⁻¹` computed by the reconstruction
loop (a proof-side abbreviation, not part of the embedded code). -/
def lagTerm (p : Nat) (all : List Share) (k : Nat) : ZMod p :=
  ((all.getD k ⟨0, 0⟩).Y : ZMod p)
    * ((all.eraseIdx k).map fun sh => -(sh.X : ZMod p)).prod
    * (((all.eraseIdx k).map fun sh =>
        ((all.getD k ⟨0, 0⟩).X : ZMod p) - (sh.X : ZMod p)).prod)⁻¹

/-! ## Generic helpers: casts to `ZMod` and list/`Finset` index bridging -/

theorem natEq_of_castZMod {p a b : Nat} (ha : a < p) (hb : b < p)
    (h : (a : ZMod p) = (b : ZMod p)) : a = b := by
  have h2 := congrArg ZMod.val h
  rwa [ZMod.val_cast_of_lt ha, ZMod.val_cast_of_lt hb] at h2

theorem castZMod_sub {p x : Nat} (h : x ≤ p) :
    ((p - x : Nat) : ZMod p) = -(x : ZMod p) := by
  rw [Nat.cast_sub h, ZMod.natCast_self, zero_sub]

theorem list_range_map_sum {M : Type} [AddCommMonoid M] (f : Nat → M) (n : Nat) :
    ((List.range n).map f).sum = ∑ k ∈ Finset.range n, f k := by
  induction n with
  | zero => simp
  | succ n ih =>
    rw [List.range_succ, List.map_append, List.sum_append, ih, Finset.sum_range_succ]
    simp

theorem list_map_prod_range {α M : Type} [CommMonoid M] (g : α → M) (d : α) (l : List α) :
    (l.map g).prod = ∏ j ∈ Finset.range l.length, g (l.getD j d) := by
  induction l with
  | nil => simp
  | cons a t ih =>
    rw [List.map_cons, List.prod_cons, ih, List.length_cons, Finset.prod_range_succ']
    simp only [List.getD_cons_succ, List.getD_cons_zero]
    exact mul_comm _ _

theorem range_succ_erase_zero (n : Nat) :
    (Finset.range (n + 1)).erase 0 = Finset.image Nat.succ (Finset.range n) := by
  ext m
  simp only [Finset.mem_erase, Finset.mem_range, Finset.mem_image]
  constructor
  · rintro ⟨h0, hm⟩
    exact ⟨m - 1, by omega, by omega⟩
  · rintro ⟨k, hk, rfl⟩
    omega

theorem range_succ_erase_succ (n i : Nat) :
    (Finset.range (n + 1)).erase (i + 1)
      = insert 0 (Finset.image Nat.succ ((Finset.range n).erase i)) := by
  ext m
  simp only [Finset.mem_erase, Finset.mem_range, Finset.mem_insert, Finset.mem_image]
  constructor
  · rintro ⟨hne, hm⟩
    rcases m with _ | k
    · exact Or.inl rfl
    · exact Or.inr ⟨k, ⟨by omega, by omega⟩, rfl⟩
  · rintro (rfl | ⟨k, ⟨hki, hkn⟩, rfl⟩)
    · exact ⟨by omega, by omega⟩
    · exact ⟨by omega, by omega⟩

theorem eraseIdx_map_prod {α M : Type} [CommMonoid M] (g : α → M) (d : α) :
    ∀ (l : List α) (i : Nat), i < l.length →
      ((l.eraseIdx i).map g).prod = ∏ j ∈ (Finset.range l.length).erase i, g (l.getD j d) := by
  intro l
  induction l with
  | nil => intro i hi; simp at hi
  | cons a t ih =>
    intro i hi
    cases i with
    | zero =>
      rw [List.eraseIdx_cons_zero, list_map_prod_range g d t, List.length_cons,
        range_succ_erase_zero, Finset.prod_image (fun x _ y _ h => by omega)]
      simp only [Nat.succ_eq_add_one, List.getD_cons_succ]
    | succ i =>
      have hit : i < t.length := by simpa using hi
      rw [List.eraseIdx_cons_succ, List.map_cons, List.prod_cons, ih i hit,
        List.length_cons, range_succ_erase_succ t.length i,
        Finset.prod_insert (by simp), Finset.prod_image (fun x _ y _ h => by omega)]
      simp only [List.getD_cons_zero, List.getD_cons_succ, Nat.succ_eq_add_one]

/-! ## The Euclidean loop and `SS::gcd` -/

theorem gcdLoop_eq_gcd (b a : Nat) : gcdLoop a b = Nat.gcd b a := by
  induction b using Nat.strong_induction_on generalizing a with
  | _ b ih =>
    match b with
    | 0 => simp [gcdLoop]
    | b + 1 =>
      rw [gcdLoop, ih (a % (b + 1)) (Nat.mod_lt _ (Nat.succ_pos _))]
      exact (Nat.gcd_rec _ _).symm

theorem SS.gcd_ok {x y : Nat} (hx : x ≠ 0) (hy : y ≠ 0) :
    SS.gcd x y = .ok (Nat.gcd x y) := by
  rw [SS.gcd, if_neg (by tauto), gcdLoop_eq_gcd, Nat.gcd_comm]

theorem SS.gcd_err_iff (x y : Nat) :
    SS.gcd x y = .error .ZeroInputGCD ↔ x = 0 ∨ y = 0 := by
  by_cases h : x = 0 ∨ y = 0
  · simp [SS.gcd, h]
  · simp [SS.gcd, h]

/-! ## `modinv` and `SS::inv_modp` -/

theorem modinv_eq_some {a n v : Nat} (h : modinv a n = some v) :
    a * v % n = 1 ∧ v < n := by
  have h1 := List.find?_some h
  have h2 := List.mem_of_find?_eq_some h
  exact ⟨by simpa using h1, List.mem_range.mp h2⟩

theorem modinv_isSome {a n : Nat} (hn : 1 < n) (h : Nat.Coprime a n) :
    ∃ v, modinv a n = some v := by
  obtain ⟨m, hm⟩ := Nat.exists_mul_emod_eq_one_of_coprime h hn
  have hlt : m % n < n := Nat.mod_lt _ (by omega)
  have hmod : a * (m % n) % n = 1 := by
    rw [Nat.mul_mod, Nat.mod_mod, ← Nat.mul_mod]
    exact hm
  cases hfind : modinv a n with
  | some v => exact ⟨v, rfl⟩
  | none =>
    exfalso
    have hnone := List.find?_eq_none.mp hfind (m % n) (List.mem_range.mpr hlt)
    simp [hmod] at hnone

theorem inv_modp_ok {p a : Nat} (hp : 1 < p) (h : Nat.Coprime a p) :
    ∃ v, SS.inv_modp p a = .ok v ∧ a * v % p = 1 ∧ v < p := by
  have hp0 : p ≠ 0 := by omega
  have haa : (p + a) % p = a % p := Nat.add_mod_left p a
  have hg : Nat.gcd (a % p) p = 1 := by
    rw [← Nat.gcd_rec, Nat.gcd_comm]
    exact h
  have ha0 : a % p ≠ 0 := by
    intro h0
    rw [h0, Nat.gcd_zero_left] at hg
    omega
  obtain ⟨v, hv⟩ := modinv_isSome hp hg
  obtain ⟨hv1, hv2⟩ := modinv_eq_some hv
  refine ⟨v, ?_, ?_, hv2⟩
  · simp [SS.inv_modp, if_neg hp0, haa, SS.gcd_ok ha0 hp0, hg, hv]
  · rw [Nat.mul_mod, Nat.mod_mod_of_dvd _ dvd_rfl, ← Nat.mul_mod] at hv1
    exact hv1

theorem inv_modp_notCoprime {p a : Nat} (hp : 1 < p) (hnc : ¬Nat.Coprime a p)
    (ha : a % p ≠ 0) : SS.inv_modp p a = .err .NotCoprimes := by
  have hp0 : p ≠ 0 := by omega
  have haa : (p + a) % p = a % p := Nat.add_mod_left p a
  have hg : Nat.gcd (a % p) p = Nat.gcd a p := by
    rw [← Nat.gcd_rec, Nat.gcd_comm]
  have hne : Nat.gcd (a % p) p ≠ 1 := by
    rw [hg]
    exact hnc
  simp only [SS.inv_modp, if_neg hp0, haa, SS.gcd_ok ha hp0, if_neg hne]

theorem inv_modp_zeroResidue {p a : Nat} (hp : 0 < p) (ha : a % p = 0) :
    SS.inv_modp p a = .panicked (.unwrapErr .ZeroInputGCD) := by
  have hp0 : p ≠ 0 := by omega
  have haa : (p + a) % p = 0 := by rw [Nat.add_mod_left]; exact ha
  have hgcd : SS.gcd 0 p = .error .ZeroInputGCD := by
    rw [SS.gcd_err_iff]
    exact Or.inl rfl
  simp only [SS.inv_modp, if_neg hp0, haa, hgcd]

/-! ## The rejection loop and the shape of a session built by `SS::new` -/

theorem pickLead_spec {p : Nat} :
    ∀ {leads : List Nat} {lc : Nat}, pickLead p leads = some lc →
      lc ≠ 0 ∧ (0 < p → lc < p) := by
  intro leads
  induction leads with
  | nil => intro lc h; simp [pickLead] at h
  | cons d ds ih =>
    intro lc h
    by_cases hd : d % p ≠ 0
    · rw [pickLead, if_pos hd] at h
      cases h
      exact ⟨hd, fun hp => Nat.mod_lt _ hp⟩
    · rw [pickLead, if_neg hd] at h
      exact ih h

theorem pickLead_isSome {p : Nat} :
    ∀ {leads : List Nat}, (∃ d ∈ leads, d % p ≠ 0) → ∃ lc, pickLead p leads = some lc := by
  intro leads
  induction leads with
  | nil => rintro ⟨d, hd, _⟩; simp at hd
  | cons d ds ih =>
    rintro ⟨e, he, hne⟩
    by_cases hd : d % p ≠ 0
    · exact ⟨d % p, by rw [pickLead, if_pos hd]⟩
    · rcases List.mem_cons.mp he with rfl | hmem
      · exact absurd hne hd
      · obtain ⟨lc, hlc⟩ := ih ⟨e, hmem, hne⟩
        exact ⟨lc, by rw [pickLead, if_neg hd]; exact hlc⟩

theorem SS.new_spec {tier : BitSize} {ufp : Bool} {t secret gp : Nat} {mid : Nat → Nat}
    {leads : List Nat} {sss : SS}
    (h : SS.new tier ufp t secret gp mid leads = some (.ok sss)) :
    2 ≤ t ∧ sss.prime = sessionPrime tier ufp gp ∧
    ∃ lc, pickLead sss.prime leads = some lc ∧
      sss.polynomial
        = (secret % sss.prime)
            :: (((List.range (t - 1 - 1)).map fun i => mid i % sss.prime) ++ [lc]) := by
  have hP : sessionPrime tier ufp gp = if ufp = true then tier.fixed_prime else gp := rfl
  by_cases ht : t ≤ 1
  · rw [SS.new, if_pos ht] at h
    cases h
  · simp only [SS.new, if_neg ht] at h
    rcases hpl : SS.gen_polynomial (if ufp = true then tier.fixed_prime else gp)
        (secret % (if ufp = true then tier.fixed_prime else gp)) (t - 1) mid leads
        with _ | poly <;> rw [hpl] at h
    · cases h
    · cases h
      rw [SS.gen_polynomial] at hpl
      rcases hlc : pickLead (if ufp = true then tier.fixed_prime else gp) leads
          with _ | lc <;> rw [hlc] at hpl
      · cases hpl
      · cases hpl
        refine ⟨by omega, hP.symm, lc, rfl, ?_⟩
        simp only [Nat.mod_mod]

/-! ## Evaluation of the sharing polynomial -/

theorem evalLoop_spec {p : Nat} (hp : p ≠ 0) (x : Nat) :
    ∀ (l : List Nat) (y xp : Nat),
      ∃ v, evalLoop p x l y xp = some v ∧
        (v : ZMod p) = (y : ZMod p)
          + ∑ k ∈ Finset.range l.length,
              (l.getD k 0 : ZMod p) * (xp : ZMod p) * (x : ZMod p) ^ k ∧
        (l = [] → v = y) ∧ (l ≠ [] → v < p) := by
  intro l
  induction l with
  | nil =>
    intro y xp
    exact ⟨y, rfl, by simp, fun _ => rfl, fun h => absurd rfl h⟩
  | cons a t ih =>
    intro y xp
    obtain ⟨v, hv, hcast, hnil, hlt⟩ := ih ((y + xp * a % p) % p) (xp * x % p)
    refine ⟨v, by simpa [evalLoop, hp] using hv, ?_, fun h => List.noConfusion h,
      fun _ => ?_⟩
    · have hsum : ∑ k ∈ Finset.range t.length,
          ((t.getD k 0 : ZMod p)) * ((xp * x % p : Nat) : ZMod p) * (x : ZMod p) ^ k
            = ∑ k ∈ Finset.range t.length,
                ((a :: t).getD (k + 1) 0 : ZMod p) * (xp : ZMod p) * (x : ZMod p) ^ (k + 1) := by
        refine Finset.sum_congr rfl fun k _ => ?_
        simp only [List.getD_cons_succ]
        push_cast [ZMod.natCast_mod]
        ring
      rw [hcast, hsum, List.length_cons, Finset.sum_range_succ']
      simp only [List.getD_cons_zero, pow_zero, mul_one]
      push_cast [ZMod.natCast_mod]
      ring
    · cases t with
      | nil =>
        rw [hnil rfl]
        exact Nat.mod_lt _ (Nat.pos_of_ne_zero hp)
      | cons b t2 => exact hlt (by simp)

theorem eval_px_spec {sss : SS} (hp : sss.prime ≠ 0) (hpoly : sss.polynomial ≠ [])
    (x : Nat) :
    ∃ v, sss.eval_px_at_xi x = some v ∧
      (v : ZMod sss.prime) = ∑ k ∈ Finset.range sss.polynomial.length,
          (sss.polynomial.getD k 0 : ZMod sss.prime) * (x : ZMod sss.prime) ^ k ∧
      (2 ≤ sss.polynomial.length → v < sss.prime) := by
  obtain ⟨a0, rest, hrep⟩ : ∃ a0 rest, sss.polynomial = a0 :: rest := by
    rcases hc : sss.polynomial with _ | ⟨a0, rest⟩
    · exact absurd hc hpoly
    · exact ⟨a0, rest, rfl⟩
  obtain ⟨v, hv, hcast, hnil, hlt⟩ := evalLoop_spec hp x rest a0 x
  refine ⟨v, by rw [SS.eval_px_at_xi, hrep]; exact hv, ?_, ?_⟩
  · have hsum : ∑ k ∈ Finset.range rest.length,
        ((rest.getD k 0 : ZMod sss.prime)) * (x : ZMod sss.prime) * (x : ZMod sss.prime) ^ k
          = ∑ k ∈ Finset.range rest.length,
              ((a0 :: rest).getD (k + 1) 0 : ZMod sss.prime) * (x : ZMod sss.prime) ^ (k + 1) := by
      refine Finset.sum_congr rfl fun k _ => ?_
      simp only [List.getD_cons_succ]
      ring
    rw [hcast, hsum, hrep, List.length_cons, Finset.sum_range_succ']
    simp only [List.getD_cons_zero, pow_zero, mul_one]
    ring
  · intro h2
    refine hlt ?_
    intro hrest
    rw [hrep, hrest] at h2
    simp at h2

theorem polyEvalSpec_cast (c : List Nat) (p x : Nat) :
    ((polyEvalSpec c p x : Nat) : ZMod p)
      = ∑ k ∈ Finset.range c.length, (c.getD k 0 : ZMod p) * (x : ZMod p) ^ k := by
  rw [polyEvalSpec, ZMod.natCast_mod, Nat.cast_list_sum, List.map_map,
    list_range_map_sum]
  refine Finset.sum_congr rfl fun k _ => ?_
  simp only [Function.comp_apply]
  push_cast
  ring

theorem eval_px_eq_polyEvalSpec {sss : SS} (hp : sss.prime ≠ 0)
    (h2 : 2 ≤ sss.polynomial.length) (x : Nat) :
    sss.eval_px_at_xi x = some (polyEvalSpec sss.polynomial sss.prime x) := by
  obtain ⟨v, hv, hcast, hlt⟩ :=
    eval_px_spec hp (by intro hc; rw [hc] at h2; simp at h2) x
  have hlt2 : polyEvalSpec sss.polynomial sss.prime x < sss.prime :=
    Nat.mod_lt _ (Nat.pos_of_ne_zero hp)
  have heq : v = polyEvalSpec sss.polynomial sss.prime x :=
    natEq_of_castZMod (hlt h2) hlt2 (by rw [hcast, polyEvalSpec_cast])
  rwa [heq] at hv

/-! ## Share generation -/

theorem gen_shares_spec {sss : SS} :
    ∀ {points : List Nat} {shares : List Share},
      SS.gen_shares sss points = some shares →
      shares.length = points.length ∧
      ∀ i, i < points.length →
        ∃ y, sss.eval_px_at_xi (points.getD i 0) = some y ∧
          shares.getD i ⟨0, 0⟩ = ⟨points.getD i 0, y⟩ := by
  intro points
  induction points with
  | nil =>
    intro shares h
    rw [SS.gen_shares] at h
    cases h
    exact ⟨rfl, fun i hi => by simp at hi⟩
  | cons pt pts ih =>
    intro shares h
    rw [SS.gen_shares] at h
    rcases hev : sss.eval_px_at_xi pt with _ | y <;> rw [hev] at h
    · cases h
    · rcases hrec : SS.gen_shares sss pts with _ | rest <;> rw [hrec] at h
      · cases h
      · cases h
        obtain ⟨hlen, hidx⟩ := ih hrec
        refine ⟨by simp [hlen], fun i hi => ?_⟩
        cases i with
        | zero => exact ⟨y, by simpa using hev, rfl⟩
        | succ i =>
          obtain ⟨y2, hy2, hs2⟩ := hidx i (by simpa using hi)
          exact ⟨y2, by simpa using hy2, by simpa using hs2⟩

theorem gen_shares_mem {sss : SS} :
    ∀ {points : List Nat} {shares : List Share} {sh : Share},
      SS.gen_shares sss points = some shares → sh ∈ shares →
      sss.eval_px_at_xi sh.X = some sh.Y ∧ sh.X ∈ points := by
  intro points
  induction points with
  | nil =>
    intro shares sh h hm
    rw [SS.gen_shares] at h
    cases h
    simp at hm
  | cons pt pts ih =>
    intro shares sh h hm
    rw [SS.gen_shares] at h
    rcases hev : sss.eval_px_at_xi pt with _ | y <;> rw [hev] at h
    · cases h
    · rcases hrec : SS.gen_shares sss pts with _ | rest <;> rw [hrec] at h
      · cases h
      · cases h
        rcases List.mem_cons.mp hm with rfl | hmem
        · exact ⟨hev, List.mem_cons_self _ _⟩
        · obtain ⟨h1, h2⟩ := ih hrec hmem
          exact ⟨h1, List.mem_cons_of_mem _ h2⟩

/-! ## The inner loop of reconstruction -/

theorem numDen_spec {p : Nat} (hp : 0 < p) (xi : Nat) :
    ∀ (l : List Share), (∀ sh ∈ l, sh.X ≤ p) → ∀ (a b : Nat),
      ∃ num den, numDen p xi l a b = .ok (num, den) ∧
        (num : ZMod p) = (a : ZMod p) * (l.map fun sh => -(sh.X : ZMod p)).prod ∧
        (den : ZMod p)
          = (b : ZMod p) * (l.map fun sh => (xi : ZMod p) - (sh.X : ZMod p)).prod ∧
        (l = [] → num = a ∧ den = b) ∧ (l ≠ [] → num < p ∧ den < p) := by
  intro l
  induction l with
  | nil =>
    intro _ a b
    exact ⟨a, b, rfl, by simp, by simp, fun _ => ⟨rfl, rfl⟩, fun h => absurd rfl h⟩
  | cons sh t ih =>
    intro hx a b
    have hshX : sh.X ≤ p := hx sh (List.mem_cons_self _ _)
    have hnlt : ¬p < sh.X := by omega
    obtain ⟨num, den, hrun, hncast, hdcast, hnil, hlt⟩ :=
      ih (fun s hs => hx s (List.mem_cons_of_mem _ hs)) (a * ((p - sh.X) % p) % p)
        (b * ((xi + (p - sh.X) % p) % p) % p)
    refine ⟨num, den, ?_, ?_, ?_, fun h => List.noConfusion h, fun _ => ?_⟩
    · rw [numDen, if_neg hnlt, if_neg (by omega)]
      exact hrun
    · rw [hncast, List.map_cons, List.prod_cons]
      push_cast [ZMod.natCast_mod, ZMod.natCast_self]
      rw [castZMod_sub hshX]
      ring
    · rw [hdcast, List.map_cons, List.prod_cons]
      push_cast [ZMod.natCast_mod, ZMod.natCast_self]
      rw [castZMod_sub hshX]
      ring
    · cases t with
      | nil =>
        obtain ⟨hn, hd⟩ := hnil rfl
        exact ⟨hn ▸ Nat.mod_lt _ hp, hd ▸ Nat.mod_lt _ hp⟩
      | cons s t2 => exact hlt (by simp)

/-! ## The outer loop of reconstruction: the panic-free path -/

theorem eraseIdx_X_ne :
    ∀ (l : List Share) (i : Nat), (l.map Share.X).Nodup → i < l.length →
      ∀ s ∈ l.eraseIdx i, s.X ≠ (l.getD i ⟨0, 0⟩).X := by
  intro l
  induction l with
  | nil => intro i _ hi; simp at hi
  | cons a t ih =>
    intro i hnd hi s hs
    rw [List.map_cons, List.nodup_cons] at hnd
    obtain ⟨hax, htnd⟩ := hnd
    cases i with
    | zero =>
      rw [List.eraseIdx_cons_zero] at hs
      intro hEq
      apply hax
      rw [List.getD_cons_zero] at hEq
      exact hEq ▸ List.mem_map_of_mem Share.X hs
    | succ i =>
      have hit : i < t.length := by simpa using hi
      rw [List.eraseIdx_cons_succ] at hs
      rcases List.mem_cons.mp hs with rfl | hmem
      · intro hEq
        apply hax
        rw [List.getD_cons_succ, List.getD_eq_getElem _ _ hit] at hEq
        exact hEq ▸ List.mem_map_of_mem Share.X (List.getElem_mem _)
      · rw [List.getD_cons_succ]
        exact ih i htnd hit s hmem

theorem outerLoop_ok {p : Nat} (hp : Nat.Prime p) (all : List Share)
    (hxlt : ∀ sh ∈ all, sh.X < p)
    (hnd : (all.map Share.X).Nodup) :
    ∀ (rest : List Share) (i res : Nat), rest = all.drop i → res < p →
      ∃ r, outerLoop p all rest i res = .ok r ∧ r < p ∧
        (r : ZMod p) = (res : ZMod p) + ∑ k ∈ Finset.Ico i all.length, lagTerm p all k := by
  haveI : Fact (Nat.Prime p) := ⟨hp⟩
  intro rest
  induction rest with
  | nil =>
    intro i res hdrop hres
    have hle : all.length ≤ i := List.drop_eq_nil_iff.mp hdrop.symm
    refine ⟨res, rfl, hres, ?_⟩
    rw [Finset.Ico_eq_empty (by omega), Finset.sum_empty, add_zero]
  | cons sh rest' ih =>
    intro i res hdrop hres
    have hi : i < all.length := by
      by_contra hni
      rw [List.drop_eq_nil_of_le (le_of_not_lt hni)] at hdrop
      cases hdrop
    have hsplit := List.drop_eq_getElem_cons (l := all) hi
    rw [← hdrop] at hsplit
    obtain ⟨hsh, hrest'⟩ : sh = all[i] ∧ rest' = all.drop (i + 1) := by
      cases hsplit
      exact ⟨rfl, rfl⟩
    have hgetD : all.getD i ⟨0, 0⟩ = all[i] := List.getD_eq_getElem _ _ hi
    have hxle : ∀ s ∈ all.eraseIdx i, s.X ≤ p := fun s hs =>
      le_of_lt (hxlt s (List.mem_of_mem_eraseIdx hs))
    obtain ⟨num, den, hrun, hncast, hdcast, hnil, hlt⟩ :=
      numDen_spec hp.pos sh.X (all.eraseIdx i) hxle 1 1
    have hdenlt : den < p := by
      by_cases hL : all.eraseIdx i = []
      · obtain ⟨_, hd⟩ := hnil hL
        rw [hd]
        exact hp.one_lt
      · exact (hlt hL).2
    have hfacne : ∀ s ∈ all.eraseIdx i, (sh.X : ZMod p) - (s.X : ZMod p) ≠ 0 := by
      intro s hs h0
      have hne := eraseIdx_X_ne all i hnd hi s hs
      rw [hgetD, ← hsh] at hne
      apply hne
      have hcast := sub_eq_zero.mp h0
      exact (natEq_of_castZMod (hxlt s (List.mem_of_mem_eraseIdx hs))
        (hxlt sh (hsh ▸ List.getElem_mem _)) hcast.symm)
    have hdenne : (den : ZMod p) ≠ 0 := by
      rw [hdcast, Nat.cast_one, one_mul]
      refine List.prod_ne_zero ?_
      intro hmem0
      obtain ⟨s, hs, h0⟩ := List.mem_map.mp hmem0
      exact hfacne s hs h0
    have hden0 : den ≠ 0 := by
      intro h0
      rw [h0, Nat.cast_zero] at hdenne
      exact hdenne rfl
    have hcop : Nat.Coprime den p :=
      ((hp.coprime_iff_not_dvd).mpr (Nat.not_dvd_of_pos_of_lt
        (Nat.pos_of_ne_zero hden0) hdenlt)).symm
    obtain ⟨v, hvok, hv1, hvlt⟩ := inv_modp_ok hp.one_lt hcop
    have hvinv : (v : ZMod p) = ((den : ZMod p))⁻¹ := by
      have hdv : ((den * v % p : Nat) : ZMod p) = ((1 : Nat) : ZMod p) := by rw [hv1]
      rw [ZMod.natCast_mod, Nat.cast_mul, Nat.cast_one] at hdv
      exact eq_inv_of_mul_eq_one_left (by rw [mul_comm]; exact hdv)
    obtain ⟨r, hrok, hrlt, hrcast⟩ :=
      ih (i + 1) ((res + sh.Y * (num * v % p) % p) % p) hrest' (Nat.mod_lt _ hp.pos)
    refine ⟨r, ?_, hrlt, ?_⟩
    · simp only [outerLoop, hrun, hvok]
      exact hrok
    · rw [hrcast]
      have hterm : (((res + sh.Y * (num * v % p) % p) % p : Nat) : ZMod p)
          = (res : ZMod p) + lagTerm p all i := by
        rw [lagTerm, hgetD, ← hsh]
        push_cast [ZMod.natCast_mod]
        rw [hncast, hvinv, hdcast]
        push_cast
        ring
      rw [hterm, Finset.sum_eq_sum_Ico_succ_bot hi]
      ring

theorem reconstruct_spec {p : Nat} (hp : Nat.Prime p) (all : List Share)
    (hxlt : ∀ sh ∈ all, sh.X < p)
    (hnd : (all.map Share.X).Nodup) :
    ∃ r, SS.reconstruct_secret p all = .ok r ∧ r < p ∧
      (r : ZMod p) = ∑ k ∈ Finset.range all.length, lagTerm p all k := by
  obtain ⟨r, h1, h2, h3⟩ := outerLoop_ok hp all hxlt hnd all 0 0 rfl hp.pos
  refine ⟨r, h1, h2, ?_⟩
  rw [h3, Nat.cast_zero, zero_add, Finset.range_eq_Ico]

/-! ## Lagrange interpolation at zero, in list form -/

theorem map_eraseIdx {α β : Type} (f : α → β) :
    ∀ (l : List α) (i : Nat), (l.map f).eraseIdx i = (l.eraseIdx i).map f := by
  intro l
  induction l with
  | nil => intro i; simp
  | cons a t ih =>
    intro i
    cases i with
    | zero => simp
    | succ i => simp [List.eraseIdx_cons_succ, ih i]

theorem getD_map_zmod {α : Type} {p : Nat} (f : α → Nat) (d : α) (hfd : f d = 0)
    (l : List α) (i : Nat) :
    (l.map fun a => ((f a : Nat) : ZMod p)).getD i 0 = ((f (l.getD i d) : Nat) : ZMod p) := by
  rcases lt_or_ge i l.length with hi | hi
  · rw [List.getD_eq_getElem _ _ (by simpa using hi), List.getD_eq_getElem _ _ hi,
      List.getElem_map]
  · rw [List.getD_eq_default _ _ (by simpa using hi), List.getD_eq_default _ _ hi, hfd,
      Nat.cast_zero]


theorem lagrange_interp_list {F : Type} [Field F] (xs c : List F)
    (hnd : xs.Nodup) (hdeg : c.length ≤ xs.length) :
    ∑ i ∈ Finset.range xs.length,
      (∑ k ∈ Finset.range c.length, c.getD k 0 * (xs.getD i 0) ^ k)
        * ((xs.eraseIdx i).map fun t => -t).prod
        * (((xs.eraseIdx i).map fun t => xs.getD i 0 - t).prod)⁻¹
      = c.getD 0 0 := by
  classical
  set f : Polynomial F
    := ∑ k ∈ Finset.range c.length, Polynomial.C (c.getD k 0) * Polynomial.X ^ k with hfdef
  have hinj : Set.InjOn (fun i => xs.getD i 0) (Finset.range xs.length) := by
    intro i hi j hj hij
    simp only [Finset.coe_range, Set.mem_Iio] at hi hj
    change xs.getD i 0 = xs.getD j 0 at hij
    rw [List.getD_eq_getElem _ _ hi, List.getD_eq_getElem _ _ hj] at hij
    exact hnd.getElem_inj_iff.mp hij
  have hdegf : f.degree < ((Finset.range xs.length).card : WithBot Nat) := by
    rw [hfdef]
    refine lt_of_le_of_lt (Polynomial.degree_sum_le _ _) ?_
    refine (Finset.sup_lt_iff ?_).mpr ?_
    · exact WithBot.bot_lt_coe _
    · intro k hk
      refine lt_of_le_of_lt (Polynomial.degree_C_mul_X_pow_le _ _) ?_
      rw [Finset.card_range]
      exact_mod_cast lt_of_lt_of_le (Finset.mem_range.mp hk) hdeg
  have heval : ∀ t : F, f.eval t = ∑ k ∈ Finset.range c.length, c.getD k 0 * t ^ k := by
    intro t
    rw [hfdef, Polynomial.eval_finset_sum]
    refine Finset.sum_congr rfl fun k _ => ?_
    simp
  have key := Lagrange.eq_interpolate (s := Finset.range xs.length)
    (v := fun i => xs.getD i 0) (f := f) hinj hdegf
  have hexpand := Polynomial.eval_finset_sum (Finset.range xs.length)
    (fun i => Polynomial.C (f.eval (xs.getD i 0))
      * Lagrange.basis (Finset.range xs.length) (fun j => xs.getD j 0) i) 0
  have hterm : ∀ i ∈ Finset.range xs.length,
      (Polynomial.C (f.eval (xs.getD i 0))
        * Lagrange.basis (Finset.range xs.length) (fun j => xs.getD j 0) i).eval 0
      = (∑ k ∈ Finset.range c.length, c.getD k 0 * (xs.getD i 0) ^ k)
          * ((xs.eraseIdx i).map fun t => -t).prod
          * (((xs.eraseIdx i).map fun t => xs.getD i 0 - t).prod)⁻¹ := by
    intro i hi
    have hi2 := Finset.mem_range.mp hi
    rw [Polynomial.eval_mul, Polynomial.eval_C, heval, Lagrange.basis,
      Polynomial.eval_prod]
    have hbd : ∀ j ∈ (Finset.range xs.length).erase i,
        (Lagrange.basisDivisor (xs.getD i 0) (xs.getD j 0)).eval 0
          = -(xs.getD j 0) * (xs.getD i 0 - xs.getD j 0)⁻¹ := by
      intro j _
      rw [Lagrange.basisDivisor, Polynomial.eval_mul, Polynomial.eval_C,
        Polynomial.eval_sub, Polynomial.eval_X, Polynomial.eval_C]
      ring
    rw [Finset.prod_congr rfl hbd, Finset.prod_mul_distrib, Finset.prod_inv_distrib,
      ← eraseIdx_map_prod (fun t => -t) (0 : F) xs i hi2,
      ← eraseIdx_map_prod (fun t => xs.getD i 0 - t) (0 : F) xs i hi2]
    ring
  calc
    ∑ i ∈ Finset.range xs.length,
        (∑ k ∈ Finset.range c.length, c.getD k 0 * (xs.getD i 0) ^ k)
          * ((xs.eraseIdx i).map fun t => -t).prod
          * (((xs.eraseIdx i).map fun t => xs.getD i 0 - t).prod)⁻¹
      = ∑ i ∈ Finset.range xs.length,
          (Polynomial.C (f.eval (xs.getD i 0))
            * Lagrange.basis (Finset.range xs.length) (fun j => xs.getD j 0) i).eval 0 :=
        Finset.sum_congr rfl fun i hi => (hterm i hi).symm
    _ = (∑ i ∈ Finset.range xs.length,
          Polynomial.C (f.eval (xs.getD i 0))
            * Lagrange.basis (Finset.range xs.length) (fun j => xs.getD j 0) i).eval 0 :=
        hexpand.symm
    _ = (Lagrange.interpolate (Finset.range xs.length) (fun j => xs.getD j 0)
          (fun i => f.eval (xs.getD i 0))).eval 0 := by
        rw [Lagrange.interpolate_apply]
    _ = f.eval 0 := congrArg (Polynomial.eval 0) key.symm
    _ = c.getD 0 0 := by
        rw [heval]
        rcases c with _ | ⟨c0, cr⟩
        · simp
        · rw [List.length_cons, Finset.sum_range_succ']
          simp [zero_pow]

theorem getD_map_zmod_nat {p : Nat} (l : List Nat) (i : Nat) :
    (l.map fun a => ((a : Nat) : ZMod p)).getD i 0 = ((l.getD i 0 : Nat) : ZMod p) := by
  rcases lt_or_ge i l.length with hi | hi
  · rw [List.getD_eq_getElem _ _ (by simpa using hi), List.getD_eq_getElem _ _ hi,
      List.getElem_map]
  · rw [List.getD_eq_default _ _ (by simpa using hi), List.getD_eq_default _ _ hi,
      Nat.cast_zero]

theorem reconstruct_correct {p : Nat} (hp : Nat.Prime p) (c : List Nat)
    (sub : List Share)
    (hxlt : ∀ sh ∈ sub, sh.X < p)
    (hnd : (sub.map Share.X).Nodup)
    (hdeg : c.length ≤ sub.length)
    (hy : ∀ sh ∈ sub, ((sh.Y : Nat) : ZMod p)
        = ∑ k ∈ Finset.range c.length, ((c.getD k 0 : Nat) : ZMod p) * ((sh.X : Nat) : ZMod p) ^ k) :
    ∃ r, SS.reconstruct_secret p sub = .ok r ∧ r < p ∧ r = c.getD 0 0 % p := by
  haveI : Fact (Nat.Prime p) := ⟨hp⟩
  obtain ⟨r, h1, h2, h3⟩ := reconstruct_spec hp sub hxlt hnd
  refine ⟨r, h1, h2, ?_⟩
  refine natEq_of_castZMod h2 (Nat.mod_lt _ hp.pos) ?_
  rw [h3, ZMod.natCast_mod]
  have hnd2 : (sub.map fun sh => ((sh.X : Nat) : ZMod p)).Nodup := by
    rw [show (sub.map fun sh => ((sh.X : Nat) : ZMod p))
        = (sub.map Share.X).map (fun a => ((a : Nat) : ZMod p)) from by
      rw [List.map_map]
      rfl]
    refine List.Nodup.map_on ?_ hnd
    intro a ha b hb hab
    obtain ⟨s1, hs1, rfl⟩ := List.mem_map.mp ha
    obtain ⟨s2, hs2, rfl⟩ := List.mem_map.mp hb
    rw [natEq_of_castZMod (hxlt s1 hs1) (hxlt s2 hs2) hab]
  have hdeg2 : (c.map fun a => ((a : Nat) : ZMod p)).length
      ≤ (sub.map fun sh => ((sh.X : Nat) : ZMod p)).length := by
    simpa using hdeg
  have hkey := lagrange_interp_list (F := ZMod p)
    (sub.map fun sh => ((sh.X : Nat) : ZMod p))
    (c.map fun a => ((a : Nat) : ZMod p)) hnd2 hdeg2
  simp only [List.length_map] at hkey
  have hgoal : ∀ i ∈ Finset.range sub.length,
      lagTerm p sub i
        = (∑ k ∈ Finset.range c.length,
            (c.map fun a => ((a : Nat) : ZMod p)).getD k 0
              * ((sub.map fun sh => ((sh.X : Nat) : ZMod p)).getD i 0) ^ k)
          * (((sub.map fun sh => ((sh.X : Nat) : ZMod p)).eraseIdx i).map fun t => -t).prod
          * ((((sub.map fun sh => ((sh.X : Nat) : ZMod p)).eraseIdx i).map
              fun t => (sub.map fun sh => ((sh.X : Nat) : ZMod p)).getD i 0 - t).prod)⁻¹ := by
    intro i hi
    have hi2 := Finset.mem_range.mp hi
    have hmem : sub.getD i ⟨0, 0⟩ ∈ sub := by
      rw [List.getD_eq_getElem _ _ hi2]
      exact List.getElem_mem _
    have hB : (((sub.map fun sh => ((sh.X : Nat) : ZMod p)).eraseIdx i).map
        fun t => -t) = (sub.eraseIdx i).map fun sh => -((sh.X : Nat) : ZMod p) := by
      rw [map_eraseIdx, List.map_map]
      rfl
    have hC : (((sub.map fun sh => ((sh.X : Nat) : ZMod p)).eraseIdx i).map
          fun t => (sub.map fun sh => ((sh.X : Nat) : ZMod p)).getD i 0 - t)
        = (sub.eraseIdx i).map
            fun sh => (((sub.getD i ⟨0, 0⟩).X : Nat) : ZMod p) - ((sh.X : Nat) : ZMod p) := by
      rw [map_eraseIdx, List.map_map, getD_map_zmod Share.X ⟨0, 0⟩ rfl]
      rfl
    have hD : (∑ k ∈ Finset.range c.length,
          (c.map fun a => ((a : Nat) : ZMod p)).getD k 0
            * ((sub.map fun sh => ((sh.X : Nat) : ZMod p)).getD i 0) ^ k)
        = (((sub.getD i ⟨0, 0⟩).Y : Nat) : ZMod p) := by
      rw [Finset.sum_congr rfl fun k _ => by
        rw [getD_map_zmod_nat, getD_map_zmod Share.X ⟨0, 0⟩ rfl]]
      exact (hy (sub.getD i ⟨0, 0⟩) hmem).symm
    rw [lagTerm, hB, hC, hD]
  rw [Finset.sum_congr rfl hgoal, hkey, getD_map_zmod_nat]

/-! ## The outer loop of reconstruction: the duplicate-`x` panic path -/

theorem outerLoop_dup {p : Nat} (hp : Nat.Prime p) (all : List Share)
    (hxlt : ∀ sh ∈ all, sh.X < p) :
    ∀ (rest : List Share) (i res : Nat), rest = all.drop i →
      (∃ k, i ≤ k ∧ k < all.length ∧ ∃ j, j < all.length ∧ j ≠ k ∧
        (all.getD j ⟨0, 0⟩).X = (all.getD k ⟨0, 0⟩).X) →
      outerLoop p all rest i res = .error (.unwrapErr .ZeroInputGCD) := by
  haveI : Fact (Nat.Prime p) := ⟨hp⟩
  intro rest
  induction rest with
  | nil =>
    intro i res hdrop hdup
    obtain ⟨k, hik, hk, _⟩ := hdup
    have := List.drop_eq_nil_iff.mp hdrop.symm
    omega
  | cons sh rest' ih =>
    intro i res hdrop hdup
    have hi : i < all.length := by
      by_contra hni
      rw [List.drop_eq_nil_of_le (le_of_not_lt hni)] at hdrop
      cases hdrop
    have hsplit := List.drop_eq_getElem_cons (l := all) hi
    rw [← hdrop] at hsplit
    obtain ⟨hsh, hrest'⟩ : sh = all[i] ∧ rest' = all.drop (i + 1) := by
      cases hsplit
      exact ⟨rfl, rfl⟩
    have hgetD : all.getD i ⟨0, 0⟩ = all[i] := List.getD_eq_getElem _ _ hi
    have hxle : ∀ s ∈ all.eraseIdx i, s.X ≤ p := fun s hs =>
      le_of_lt (hxlt s (List.mem_of_mem_eraseIdx hs))
    obtain ⟨num, den, hrun, hncast, hdcast, hnil, hlt⟩ :=
      numDen_spec hp.pos sh.X (all.eraseIdx i) hxle 1 1
    have hdenlt : den < p := by
      by_cases hL : all.eraseIdx i = []
      · obtain ⟨_, hd⟩ := hnil hL
        rw [hd]
        exact hp.one_lt
      · exact (hlt hL).2
    by_cases hPi : ∃ j, j < all.length ∧ j ≠ i ∧
        (all.getD j ⟨0, 0⟩).X = (all.getD i ⟨0, 0⟩).X
    · obtain ⟨j, hj, hjne, hjX⟩ := hPi
      have hjmem : all.getD j ⟨0, 0⟩ ∈ all.eraseIdx i := by
        rw [List.mem_eraseIdx_iff_getElem?]
        exact ⟨j, hjne, by
          rw [List.getElem?_eq_getElem hj, List.getD_eq_getElem _ _ hj]⟩
      have hfac0 : (sh.X : ZMod p) - (((all.getD j ⟨0, 0⟩).X : Nat) : ZMod p) = 0 := by
        rw [hjX, hgetD, ← hsh, sub_self]
      have hden0 : (den : ZMod p) = 0 := by
        rw [hdcast, Nat.cast_one, one_mul]
        refine List.prod_eq_zero ?_
        rw [List.mem_map]
        exact ⟨all.getD j ⟨0, 0⟩, hjmem, hfac0.symm ▸ rfl⟩
      have hdenEq : den = 0 :=
        natEq_of_castZMod hdenlt hp.pos (by rw [hden0, Nat.cast_zero])
      have hinv : SS.inv_modp p den = .panicked (.unwrapErr .ZeroInputGCD) :=
        inv_modp_zeroResidue hp.pos (by rw [hdenEq]; exact Nat.zero_mod p)
      simp only [outerLoop, hrun, hinv]
    · push_neg at hPi
      have hfacne : ∀ s ∈ all.eraseIdx i, (sh.X : ZMod p) - (s.X : ZMod p) ≠ 0 := by
        intro s hs h0
        obtain ⟨j, hjne, hj⟩ := List.mem_eraseIdx_iff_getElem?.mp hs
        have hjlt : j < all.length := by
          by_contra hn
          rw [List.getElem?_eq_none (le_of_not_lt hn)] at hj
          cases hj
        rw [List.getElem?_eq_getElem hjlt] at hj
        have hsj : all[j] = s := by
          cases hj
          rfl
        refine hPi j hjlt hjne ?_
        rw [List.getD_eq_getElem _ _ hjlt, hgetD, hsj, ← hsh]
        have hcast := sub_eq_zero.mp h0
        exact natEq_of_castZMod (hxlt s (List.mem_of_mem_eraseIdx hs))
          (hxlt sh (hsh ▸ List.getElem_mem _)) hcast.symm
      have hdenne : (den : ZMod p) ≠ 0 := by
        rw [hdcast, Nat.cast_one, one_mul]
        refine List.prod_ne_zero ?_
        intro hmem0
        obtain ⟨s, hs, h0⟩ := List.mem_map.mp hmem0
        exact hfacne s hs h0
      have hden0 : den ≠ 0 := by
        intro h0
        rw [h0, Nat.cast_zero] at hdenne
        exact hdenne rfl
      have hcop : Nat.Coprime den p :=
        ((hp.coprime_iff_not_dvd).mpr (Nat.not_dvd_of_pos_of_lt
          (Nat.pos_of_ne_zero hden0) hdenlt)).symm
      obtain ⟨v, hvok, _, _⟩ := inv_modp_ok hp.one_lt hcop
      simp only [outerLoop, hrun, hvok]
      refine ih (i + 1) _ hrest' ?_
      obtain ⟨k, hik, hk, j, hjlt, hjk, hjX⟩ := hdup
      have hki : k ≠ i := by
        intro hkEq
        rw [hkEq] at hjX hjk
        exact hPi j hjlt hjk hjX
      exact ⟨k, by omega, hk, j, hjlt, hjk, hjX⟩

theorem gen_shares_total {sss : SS} (hp : sss.prime ≠ 0) (hpoly : sss.polynomial ≠ []) :
    ∀ points : List Nat, ∃ shares, SS.gen_shares sss points = some shares := by
  intro points
  induction points with
  | nil => exact ⟨[], rfl⟩
  | cons pt pts ih =>
    obtain ⟨v, hv, _, _⟩ := eval_px_spec hp hpoly pt
    obtain ⟨rest, hrest⟩ := ih
    exact ⟨⟨pt, v⟩ :: rest, by rw [SS.gen_shares, hv, hrest]⟩

/-! ## The claims -/

/-- C9: for every pair of big integers, `SS::gcd` fails with the
`ZeroInputGCD` error exactly when one of the operands is zero, and for
positive operands it returns their greatest common divisor (the Euclidean
loop computes `Nat.gcd`). -/
theorem C9_gcd_spec (x y : Nat) :
    (SS.gcd x y = .error .ZeroInputGCD ↔ x = 0 ∨ y = 0) ∧
    (x ≠ 0 → y ≠ 0 → SS.gcd x y = .ok (Nat.gcd x y)) :=
  ⟨SS.gcd_err_iff x y, fun hx hy => SS.gcd_ok hx hy⟩

/-- Witness for C9 at `x = 12`, `y = 8` and at a zero operand. -/
theorem C9_gcd_spec_witness :
    SS.gcd 12 8 = .ok (Nat.gcd 12 8) ∧ SS.gcd 0 8 = .error .ZeroInputGCD :=
  ⟨(C9_gcd_spec 12 8).2 (by decide) (by decide),
   (C9_gcd_spec 0 8).1.mpr (Or.inl rfl)⟩

/-- C10: for every modulus, `SS::reconstruct_secret` applied to the empty
share sequence returns `0` without error: the accumulator starts at zero
and the per-share loop body never runs. -/
theorem C10_reconstruct_empty (p : Nat) : SS.reconstruct_secret p [] = .ok 0 := rfl

/-- C6: for every tier, fixed-prime flag, secret and modelled randomness,
`SS::new` returns `Err(ThresholdTooSmall)` if and only if the threshold is
at most 1; in every other case the result is a session (or, in the model,
the marker of the never-terminating rejection loop), never that error. -/
theorem C6_threshold_error (tier : BitSize) (ufp : Bool) (t secret gp : Nat)
    (mid : Nat → Nat) (leads : List Nat) :
    SS.new tier ufp t secret gp mid leads = some (.error .ThresholdTooSmall) ↔ t ≤ 1 := by
  constructor
  · intro h
    by_contra ht
    simp only [SS.new, if_neg ht] at h
    rcases hpl : SS.gen_polynomial (if ufp = true then tier.fixed_prime else gp)
        (secret % (if ufp = true then tier.fixed_prime else gp)) (t - 1) mid leads
        with _ | poly <;> rw [hpl] at h <;> cases h
  · intro ht
    rw [SS.new, if_pos ht]

/-- Witness for C6: threshold 1 is rejected, threshold 2 is not. -/
theorem C6_threshold_error_witness :
    SS.new .Bit256 false 1 5 7 (fun _ => 0) [1] = some (.error .ThresholdTooSmall) ∧
    ¬SS.new .Bit256 false 2 5 7 (fun _ => 0) [1] = some (.error .ThresholdTooSmall) :=
  ⟨(C6_threshold_error .Bit256 false 1 5 7 (fun _ => 0) [1]).mpr (by decide),
   fun h => by
    have := (C6_threshold_error .Bit256 false 2 5 7 (fun _ => 0) [1]).mp h
    omega⟩

/-- C5 counterexample: at modulus 5 and residue 0 (`a ≡ 0 (mod p)`, hence
not coprime), `inv_modp` does not fail with the `NotCoprimes` error as the
claim states; it panics with the unwrapped `ZeroInputGCD` error from the
inner `gcd` call. -/
theorem C5_counterexample :
    SS.inv_modp 5 0 = .panicked (.unwrapErr .ZeroInputGCD) ∧
    SS.inv_modp 5 0 ≠ .err .NotCoprimes := by decide

/-- C5 (amended): for every modulus `p > 1`: if `a` is coprime to `p`,
`inv_modp` returns an inverse `v < p` with `a * v ≡ 1 (mod p)`; if `a` is
not coprime to `p` but `a % p ≠ 0` it fails with `NotCoprimes`; and if
`a ≡ 0 (mod p)` it panics with the unwrapped `ZeroInputGCD` error. -/
theorem C5_inv_modp (p a : Nat) (hp : 1 < p) :
    (Nat.Coprime a p → ∃ v, SS.inv_modp p a = .ok v ∧ a * v % p = 1 ∧ v < p) ∧
    (¬Nat.Coprime a p → a % p ≠ 0 → SS.inv_modp p a = .err .NotCoprimes) ∧
    (a % p = 0 → SS.inv_modp p a = .panicked (.unwrapErr .ZeroInputGCD)) :=
  ⟨fun h => inv_modp_ok hp h,
   fun h1 h2 => inv_modp_notCoprime hp h1 h2,
   fun h => inv_modp_zeroResidue (by omega) h⟩

/-- Witness for C5: an invertible residue, a non-coprime one, and a zero
residue. -/
theorem C5_inv_modp_witness :
    (∃ v, SS.inv_modp 7 3 = .ok v ∧ 3 * v % 7 = 1 ∧ v < 7) ∧
    SS.inv_modp 10 4 = .err .NotCoprimes ∧
    SS.inv_modp 7 14 = .panicked (.unwrapErr .ZeroInputGCD) :=
  ⟨(C5_inv_modp 7 3 (by decide)).1 (by decide),
   (C5_inv_modp 10 4 (by decide)).2.1 (by decide) (by decide),
   (C5_inv_modp 7 14 (by decide)).2.2 (by decide)⟩

/-- C2 counterexample: reconstructing from two shares with the same
x-coordinate does not fail with the `NotCoprimes` error as the claim
states: the zero denominator reaches `gcd`, whose `ZeroInputGCD` error is
unwrapped, i.e. the run panics with `ZeroInputGCD`. -/
theorem C2_counterexample :
    SS.reconstruct_secret 7 [⟨1, 2⟩, ⟨1, 3⟩] = .error (.unwrapErr .ZeroInputGCD) ∧
    SS.reconstruct_secret 7 [⟨1, 2⟩, ⟨1, 3⟩] ≠ .error (.unwrapErr .NotCoprimes) := by
  decide

/-- C2 (amended): for every prime `p` and share list with x-coordinates
below `p` containing two shares with equal x-coordinates at distinct
positions, the per-share denominator collapses to `0 mod p` and
reconstruction panics with the unwrapped `ZeroInputGCD` error of the inner
`gcd` call (rather than returning a `NotCoprimes` error value). -/
theorem C2_duplicate_x (p : Nat) (shares : List Share) (hp : Nat.Prime p)
    (hxlt : ∀ sh ∈ shares, sh.X < p)
    (hdup : ∃ i j, i < shares.length ∧ j < shares.length ∧ i ≠ j ∧
      (shares.getD i ⟨0, 0⟩).X = (shares.getD j ⟨0, 0⟩).X) :
    SS.reconstruct_secret p shares = .error (.unwrapErr .ZeroInputGCD) := by
  obtain ⟨i, j, hi, hj, hne, hX⟩ := hdup
  refine outerLoop_dup hp shares hxlt shares 0 0 rfl ?_
  exact ⟨j, Nat.zero_le _, hj, i, hi, hne, hX⟩

/-- Witness for C2 at `p = 11` with a duplicated x-coordinate. -/
theorem C2_duplicate_x_witness :
    SS.reconstruct_secret 11 [⟨2, 5⟩, ⟨2, 6⟩, ⟨3, 1⟩]
      = .error (.unwrapErr .ZeroInputGCD) :=
  C2_duplicate_x 11 [⟨2, 5⟩, ⟨2, 6⟩, ⟨3, 1⟩] (by decide) (by decide)
    ⟨0, 1, by decide, by decide, by decide, by decide⟩

/-- C3 counterexample: `reconstruct_secret` is not panic-free: a share
with x-coordinate larger than the modulus makes the `BigUint` subtraction
`prime - x_j` underflow, an uncatchable fault. -/
theorem C3_counterexample :
    SS.reconstruct_secret 5 [⟨1, 1⟩, ⟨7, 1⟩] = .error .underflow := by decide

/-- C3 (amended): `reconstruct_secret` can panic (duplicate x-coordinates
or x-coordinates at least `p` or a non-invertible denominator under a
composite modulus); it never panics — and returns a reduced value — when
the modulus is prime and the share x-coordinates are pairwise distinct and
below `p`. -/
theorem C3_reconstruct_no_panic (p : Nat) (shares : List Share) (hp : Nat.Prime p)
    (hxlt : ∀ sh ∈ shares, sh.X < p) (hnd : (shares.map Share.X).Nodup) :
    ∃ r, SS.reconstruct_secret p shares = .ok r ∧ r < p := by
  obtain ⟨r, h1, h2, _⟩ := reconstruct_spec hp shares hxlt hnd
  exact ⟨r, h1, h2⟩

/-- Witness for C3 at `p = 5` with two distinct reduced shares. -/
theorem C3_reconstruct_no_panic_witness :
    ∃ r, SS.reconstruct_secret 5 [⟨1, 2⟩, ⟨2, 3⟩] = .ok r ∧ r < 5 :=
  C3_reconstruct_no_panic 5 [⟨1, 2⟩, ⟨2, 3⟩] (by decide) (by decide) (by decide)

/-- C4: for every session prime at least 2 (all the fixed primes and any
generated prime are), threshold `t ≥ 2` and secret, `SS::new` succeeds
(granted the rejection loop draws some nonzero residue, an event of
probability 1 modelled by `hlead`), and the polynomial has exactly `t`
coefficients, first entry `secret mod p`, all entries in `[0, p)`, and a
nonzero leading (last) coefficient. -/
theorem C4_new_polynomial (tier : BitSize) (ufp : Bool) (t secret gp : Nat)
    (mid : Nat → Nat) (leads : List Nat)
    (hp : 2 ≤ sessionPrime tier ufp gp) (ht : 2 ≤ t)
    (hlead : ∃ d ∈ leads, d % sessionPrime tier ufp gp ≠ 0) :
    ∃ sss : SS, SS.new tier ufp t secret gp mid leads = some (.ok sss) ∧
      sss.prime = sessionPrime tier ufp gp ∧
      sss.polynomial.length = t ∧
      sss.polynomial.headI = secret % sss.prime ∧
      (∀ co ∈ sss.polynomial, co < sss.prime) ∧
      ∃ lc, sss.polynomial.getLast? = some lc ∧ lc ≠ 0 := by
  have hP : sessionPrime tier ufp gp = if ufp = true then tier.fixed_prime else gp := rfl
  obtain ⟨lc, hlc⟩ := pickLead_isSome hlead
  obtain ⟨hlc0, hlclt⟩ := pickLead_spec hlc
  refine ⟨⟨sessionPrime tier ufp gp,
    (secret % sessionPrime tier ufp gp)
      :: (((List.range (t - 1 - 1)).map fun i => mid i % sessionPrime tier ufp gp)
        ++ [lc])⟩,
    ?_, rfl, ?_, rfl, ?_, lc, ?_, hlc0⟩
  · simp only [SS.new, if_neg (show ¬t ≤ 1 by omega), SS.gen_polynomial, ← hP, hlc,
      Nat.mod_mod]
  · simp only [List.length_cons, List.length_append, List.length_map,
      List.length_range, List.length_singleton, List.length_nil]
    omega
  · intro co hco
    rcases List.mem_cons.mp hco with rfl | hco2
    · exact Nat.mod_lt _ (by omega)
    · rcases List.mem_append.mp hco2 with hmid | hlast
      · obtain ⟨i, _, rfl⟩ := List.mem_map.mp hmid
        exact Nat.mod_lt _ (by omega)
      · rw [List.mem_singleton] at hlast
        rw [hlast]
        exact hlclt (by omega)
  · rw [show (secret % sessionPrime tier ufp gp)
        :: (((List.range (t - 1 - 1)).map fun i => mid i % sessionPrime tier ufp gp)
          ++ [lc])
        = ((secret % sessionPrime tier ufp gp)
            :: ((List.range (t - 1 - 1)).map fun i => mid i % sessionPrime tier ufp gp))
          ++ [lc] from rfl]
    exact List.getLast?_concat _

/-- Witness for C4 at a generated prime 7, threshold 2, secret 12. -/
theorem C4_new_polynomial_witness :
    ∃ sss : SS, SS.new .Bit256 false 2 12 7 (fun _ => 0) [3] = some (.ok sss) ∧
      sss.prime = sessionPrime .Bit256 false 7 ∧
      sss.polynomial.length = 2 ∧
      sss.polynomial.headI = 12 % sss.prime ∧
      (∀ co ∈ sss.polynomial, co < sss.prime) ∧
      ∃ lc, sss.polynomial.getLast? = some lc ∧ lc ≠ 0 :=
  C4_new_polynomial .Bit256 false 2 12 7 (fun _ => 0) [3] (by decide) (by decide)
    (by decide)

/-- C7: for every session built by `SS::new`, `gen_shares` returns one
share per input point, in order, whose x-coordinate is the point and whose
y-coordinate is `Σ a_k x^k mod p` (the specification-side evaluation
`polyEvalSpec`). -/
theorem C7_gen_shares (tier : BitSize) (ufp : Bool) (t secret gp : Nat)
    (mid : Nat → Nat) (leads : List Nat) (sss : SS) (points : List Nat)
    (hnew : SS.new tier ufp t secret gp mid leads = some (.ok sss))
    (hp : 2 ≤ sessionPrime tier ufp gp) :
    ∃ shares, SS.gen_shares sss points = some shares ∧
      shares.length = points.length ∧
      ∀ i, i < points.length →
        shares.getD i ⟨0, 0⟩
          = ⟨points.getD i 0, polyEvalSpec sss.polynomial sss.prime (points.getD i 0)⟩ := by
  obtain ⟨ht, hpr, lc, hlc, hpoly⟩ := SS.new_spec hnew
  have hp2 : 2 ≤ sss.prime := hpr ▸ hp
  have hpnz : sss.prime ≠ 0 := by omega
  have hlen2 : 2 ≤ sss.polynomial.length := by
    rw [hpoly]
    simp only [List.length_cons, List.length_append, List.length_map,
      List.length_range, List.length_singleton, List.length_nil]
    omega
  have hpolynil : sss.polynomial ≠ [] := by
    rw [hpoly]
    simp
  obtain ⟨shares, hshares⟩ := gen_shares_total hpnz hpolynil points
  obtain ⟨hlen, hidx⟩ := gen_shares_spec hshares
  refine ⟨shares, hshares, hlen, fun i hi => ?_⟩
  obtain ⟨y, hy, hsi⟩ := hidx i hi
  rw [eval_px_eq_polyEvalSpec hpnz hlen2] at hy
  cases hy
  exact hsi

/-- Witness for C7 at the session with prime 7 and polynomial `[5, 1]`. -/
theorem C7_gen_shares_witness :
    ∃ shares, SS.gen_shares ⟨7, [5, 1]⟩ [4, 9] = some shares ∧
      shares.length = [4, 9].length ∧
      ∀ i, i < [4, 9].length →
        shares.getD i ⟨0, 0⟩
          = ⟨[4, 9].getD i 0,
            polyEvalSpec (SS.mk 7 [5, 1]).polynomial (SS.mk 7 [5, 1]).prime
              ([4, 9].getD i 0)⟩ :=
  C7_gen_shares .Bit256 false 2 5 7 (fun _ => 0) [1] ⟨7, [5, 1]⟩ [4, 9] (by decide)
    (by decide)

/-- C8 counterexample: shares produced by `gen_shares` need not have their
x-coordinate in `[0, p)`: an input point equal to the session prime is
stored unreduced. -/
theorem C8_counterexample :
    SS.new .Bit256 false 2 5 7 (fun _ => 0) [1] = some (.ok ⟨7, [5, 1]⟩) ∧
    SS.gen_shares ⟨7, [5, 1]⟩ [7] = some [⟨7, 5⟩] ∧
    ¬(Share.mk 7 5).X < (SS.mk 7 [5, 1]).prime := by decide

/-- C8 (amended): every share produced by `gen_shares` on a session has
its y-coordinate in `[0, p)`; its x-coordinate equals the corresponding
input point unreduced, and hence lies in `[0, p)` exactly when the caller's
points do. -/
theorem C8_share_ranges (tier : BitSize) (ufp : Bool) (t secret gp : Nat)
    (mid : Nat → Nat) (leads : List Nat) (sss : SS) (points : List Nat)
    (shares : List Share)
    (hnew : SS.new tier ufp t secret gp mid leads = some (.ok sss))
    (hp : 2 ≤ sessionPrime tier ufp gp)
    (hgen : SS.gen_shares sss points = some shares) :
    (∀ sh ∈ shares, sh.Y < sss.prime) ∧
    (∀ i, i < points.length → (shares.getD i ⟨0, 0⟩).X = points.getD i 0) ∧
    ((∀ pt ∈ points, pt < sss.prime) → ∀ sh ∈ shares, sh.X < sss.prime) := by
  obtain ⟨ht, hpr, lc, hlc, hpoly⟩ := SS.new_spec hnew
  have hp2 : 2 ≤ sss.prime := hpr ▸ hp
  have hpnz : sss.prime ≠ 0 := by omega
  have hlen2 : 2 ≤ sss.polynomial.length := by
    rw [hpoly]
    simp only [List.length_cons, List.length_append, List.length_map,
      List.length_range, List.length_singleton, List.length_nil]
    omega
  have hpolynil : sss.polynomial ≠ [] := by
    rw [hpoly]
    simp
  refine ⟨?_, ?_, ?_⟩
  · intro sh hsh
    obtain ⟨heval, _⟩ := gen_shares_mem hgen hsh
    obtain ⟨v, hv, _, hvlt⟩ := eval_px_spec hpnz hpolynil sh.X
    rw [hv] at heval
    cases heval
    exact hvlt hlen2
  · obtain ⟨_, hidx⟩ := gen_shares_spec hgen
    intro i hi
    obtain ⟨y, _, hsi⟩ := hidx i hi
    rw [hsi]
  · intro hpts sh hsh
    obtain ⟨_, hmem⟩ := gen_shares_mem hgen hsh
    exact hpts sh.X hmem

/-- Witness for C8 with points below the prime. -/
theorem C8_share_ranges_witness :
    (∀ sh ∈ [Share.mk 2 0, Share.mk 4 2], sh.Y < (SS.mk 7 [5, 1]).prime) ∧
    (∀ i, i < [2, 4].length →
      (([Share.mk 2 0, Share.mk 4 2]).getD i ⟨0, 0⟩).X = [2, 4].getD i 0) ∧
    ((∀ pt ∈ [2, 4], pt < (SS.mk 7 [5, 1]).prime) →
      ∀ sh ∈ [Share.mk 2 0, Share.mk 4 2], sh.X < (SS.mk 7 [5, 1]).prime) :=
  C8_share_ranges .Bit256 false 2 5 7 (fun _ => 0) [1] ⟨7, [5, 1]⟩ [2, 4]
    [⟨2, 0⟩, ⟨4, 2⟩] (by decide) (by decide) (by decide)

/-- C1 counterexample: the round trip fails as stated when the
pairwise-distinct nonzero points are not below the modulus: for the
session with (generated) prime 7 and polynomial `[5, 1]`, sharing at the
distinct nonzero points 1 and 8 and reconstructing from both shares does
not return `5 mod 7` — the subtraction `prime - x_j` underflows and the
run panics. -/
theorem C1_counterexample :
    SS.new .Bit256 false 2 5 7 (fun _ => 0) [1] = some (.ok ⟨7, [5, 1]⟩) ∧
    SS.gen_shares ⟨7, [5, 1]⟩ [1, 8] = some [⟨1, 6⟩, ⟨8, 6⟩] ∧
    (1 : Nat) ≠ 8 ∧ (1 : Nat) ≠ 0 ∧ (8 : Nat) ≠ 0 ∧
    (([Share.mk 1 6, Share.mk 8 6]).map Share.X).Nodup ∧
    SS.reconstruct_secret 7 [⟨1, 6⟩, ⟨8, 6⟩] = .error .underflow ∧
    SS.reconstruct_secret 7 [⟨1, 6⟩, ⟨8, 6⟩] ≠ .ok (5 % 7) := by decide

/-- C1 (amended): round trip — for every session created by `SS::new`
with threshold `t ≥ 2` and secret `s`, and every subset of size at least
`t` of the shares produced by `gen_shares` whose x-coordinates are
pairwise distinct, nonzero, and below the session prime,
`reconstruct_secret` returns `s mod prime` (the session prime is prime:
the fixed primes are, and the safe-prime generator only emits primes). -/
theorem C1_round_trip (tier : BitSize) (ufp : Bool) (t secret gp : Nat)
    (mid : Nat → Nat) (leads : List Nat) (sss : SS) (points : List Nat)
    (shares sub : List Share)
    (hnew : SS.new tier ufp t secret gp mid leads = some (.ok sss))
    (hp : Nat.Prime sss.prime)
    (hgen : SS.gen_shares sss points = some shares)
    (hsub : ∀ sh ∈ sub, sh ∈ shares)
    (hlen : t ≤ sub.length)
    (hnd : (sub.map Share.X).Nodup)
    (hnz : ∀ sh ∈ sub, sh.X ≠ 0)
    (hxlt : ∀ sh ∈ sub, sh.X < sss.prime) :
    SS.reconstruct_secret sss.prime sub = .ok (secret % sss.prime) := by
  obtain ⟨ht, hpr, lc, hlc, hpoly⟩ := SS.new_spec hnew
  have hlenp : sss.polynomial.length = t := by
    rw [hpoly]
    simp only [List.length_cons, List.length_append, List.length_map,
      List.length_range, List.length_singleton, List.length_nil]
    omega
  have hpnz : sss.prime ≠ 0 := by
    have := hp.pos
    omega
  have hpolynil : sss.polynomial ≠ [] := by
    rw [hpoly]
    simp
  have hy : ∀ sh ∈ sub, ((sh.Y : Nat) : ZMod sss.prime)
      = ∑ k ∈ Finset.range sss.polynomial.length,
          ((sss.polynomial.getD k 0 : Nat) : ZMod sss.prime)
            * ((sh.X : Nat) : ZMod sss.prime) ^ k := by
    intro sh hsh
    obtain ⟨heval, _⟩ := gen_shares_mem hgen (hsub sh hsh)
    obtain ⟨v, hv, hcast, _⟩ := eval_px_spec hpnz hpolynil sh.X
    rw [hv] at heval
    cases heval
    exact hcast
  obtain ⟨r, hrec, hrlt, hres⟩ :=
    reconstruct_correct hp sss.polynomial sub hxlt hnd (by omega) hy
  rw [hrec, hres, hpoly]
  simp [Nat.mod_mod]

/-- Witness for C1: threshold-2 session with prime 7 and polynomial
`[5, 1]`; two shares with distinct nonzero reduced x-coordinates
reconstruct the secret `5`. -/
theorem C1_round_trip_witness :
    SS.reconstruct_secret 7 [⟨3, 1⟩, ⟨1, 6⟩] = .ok (5 % 7) :=
  C1_round_trip .Bit256 false 2 5 7 (fun _ => 0) [1] ⟨7, [5, 1]⟩ [1, 3]
    [⟨1, 6⟩, ⟨3, 1⟩] [⟨3, 1⟩, ⟨1, 6⟩] (by decide) (by decide) (by decide)
    (by decide) (by decide) (by decide) (by decide) (by decide)
